import Mathlib

/-!
Verification of the ts-compress-tool core: the textual normalizer
(`advancedCompress`), the compression pipeline, statistics, batch
aggregation, output formatting and file filtering, embedded from the
TypeScript source as executable Lean definitions over character lists.
-/

/-- JavaScript regular-expression whitespace class `\s`, restricted to the
code points occurring in source text handled by the tool. -/
def isWsChar (c : Char) : Bool :=
  c = ' ' || c = '\t' || c = '\n' || c = '\r' || c = '\x0b' || c = '\x0c'

/-- The structural punctuation set of the generic tightening rule
`/\s*([{}:;,=()[\]<>])\s*/g` in `compressionRules`. -/
def isPunctChar (c : Char) : Bool :=
  c = '{' || c = '}' || c = ':' || c = ';' || c = ',' || c = '=' ||
  c = '(' || c = ')' || c = '[' || c = ']' || c = '<' || c = '>'

/-- JavaScript `\w` word class `[A-Za-z0-9_]`. -/
def isWordChar (c : Char) : Bool :=
  ('a' ≤ c && c ≤ 'z') || ('A' ≤ c && c ≤ 'Z') || ('0' ≤ c && c ≤ '9') || c = '_'

/-- JavaScript `[A-Za-z]`. -/
def isAsciiLetter (c : Char) : Bool :=
  ('a' ≤ c && c ≤ 'z') || ('A' ≤ c && c ≤ 'Z')

/-- The non-whitespace character subsequence of a character list. -/
def nonWsOf (l : List Char) : List Char := l.filter (fun c => !isWsChar c)

/-- Scanner for rule `/\n\s*\n/g → "\n"` (collapse runs of blank lines).
With `st = none` it copies; with `st = some buf` a newline has just been
emitted and `buf` holds (reversed) the non-newline whitespace seen since:
another newline discards the buffer (the regex match extends to the last
newline of the whitespace run), any other character flushes it. -/
def rule1Go (st : Option (List Char)) : List Char → List Char
  | [] => match st with
    | none => []
    | some buf => buf.reverse
  | c :: cs => match st with
    | none =>
      if c = '\n' then '\n' :: rule1Go (some []) cs
      else c :: rule1Go none cs
    | some buf =>
      if c = '\n' then rule1Go (some []) cs
      else if isWsChar c then rule1Go (some (c :: buf)) cs
      else buf.reverse ++ c :: rule1Go none cs

/-- Rule 1 of `compressionRules`: `[/\n\s*\n/g, '\n']`. -/
def rule1L (l : List Char) : List Char := rule1Go none l

/-- Scanner for rule `/^\s+/gm → ""`: whitespace runs starting at the
beginning of the input or directly after a newline are removed (such a run
may itself contain newlines, which `\s` matches). -/
def rule2Go (dropping : Bool) : List Char → List Char
  | [] => []
  | c :: cs =>
    if dropping && isWsChar c then rule2Go true cs
    else if c = '\n' then '\n' :: rule2Go true cs
    else c :: rule2Go false cs

/-- Rule 2 of `compressionRules`: `[/^\s+/gm, '']`. -/
def rule2L (l : List Char) : List Char := rule2Go true l

/-- Helper for rule `/\s+$/gm`: given the reversed pending whitespace run,
the part of the run that survives.  The regex deletes the run up to (not
including) its last newline; a run reaching the end of the input is
deleted entirely, which `rule3Go` handles separately. -/
def trailKeep (buf : List Char) : List Char :=
  if buf.contains '\n' then (buf.takeWhile (fun c => c ≠ '\n') ++ ['\n']).reverse
  else buf.reverse

/-- Scanner for rule `/\s+$/gm → ""`: buffers each whitespace run
(reversed); a following non-whitespace character emits the run minus the
part the regex deletes, and a run reaching the end of input is dropped. -/
def rule3Go (buf : List Char) : List Char → List Char
  | [] => []
  | c :: cs =>
    if isWsChar c then rule3Go (c :: buf) cs
    else trailKeep buf ++ c :: rule3Go [] cs

/-- Rule 3 of `compressionRules`: `[/\s+$/gm, '']`. -/
def rule3L (l : List Char) : List Char := rule3Go [] l

/-- Scanner for rule `/\s*([{}:;,=()[\]<>])\s*/g → "$1"`.  `afterP` means a
punctuation character was just emitted and its trailing `\s*` is being
consumed; `pend` buffers (reversed) a whitespace run whose fate depends on
the next non-whitespace character: dropped before punctuation, kept
otherwise. -/
def rule4Go (afterP : Bool) (pend : List Char) : List Char → List Char
  | [] => pend.reverse
  | c :: cs =>
    if isPunctChar c then c :: rule4Go true [] cs
    else if isWsChar c then
      if afterP then rule4Go true [] cs
      else rule4Go false (c :: pend) cs
    else pend.reverse ++ c :: rule4Go false [] cs

/-- Rule 4 of `compressionRules`: `[/\s*([{}:;,=()[\]<>])\s*/g, '$1']`. -/
def rule4L (l : List Char) : List Char := rule4Go false [] l

/-- Literal match at the head: `litRest p l = some r` when `l = p ++ r`. -/
def litRest : List Char → List Char → Option (List Char)
  | [], l => some l
  | _ :: _, [] => none
  | p :: ps, c :: cs => if p = c then litRest ps cs else none

/-- Head match for a pattern of literal `kw`, a whitespace gap, then
literal `close`.  `needWs = true` demands a non-empty gap (`\s+`),
otherwise the gap is `\s*`.  Returns the input remaining after the match. -/
def gapMatch (kw close : List Char) (needWs : Bool) (l : List Char) : Option (List Char) :=
  match litRest kw l with
  | none => none
  | some r =>
    if needWs && (r.takeWhile isWsChar).isEmpty then none
    else litRest close (r.dropWhile isWsChar)

/-- Fueled scanner replacing every occurrence of `kw`, whitespace gap,
`close` by `kw ++ sep ++ close`, scanning left to right and continuing
after each match, like a global JavaScript regex replace of `kw\s*close`
(resp. `kw\s+close` when `needWs`).  Exhausted fuel returns the input
unchanged; the wrappers supply enough fuel for the whole input. -/
def gapRuleGo (kw close sep : List Char) (needWs : Bool) : Nat → List Char → List Char
  | 0, l => l
  | _ + 1, [] => []
  | n + 1, c :: cs =>
    match gapMatch kw close needWs (c :: cs) with
    | some rest => kw ++ sep ++ close ++ gapRuleGo kw close sep needWs n rest
    | none => c :: gapRuleGo kw close sep needWs n cs

/-- Global replace of `kw\s*close` by `kw ++ close`, or of `kw\s+close` by
`kw ++ " " ++ close` when `needWs`. -/
def gapRule (kw close : List Char) (needWs : Bool) (l : List Char) : List Char :=
  gapRuleGo kw close (if needWs then [' '] else []) needWs l.length l

/-- Rule 5: `[/import\s*{/g, 'import{']`. -/
def rule5L (l : List Char) : List Char := gapRule "import".toList "\x7b".toList false l

/-- Rule 6: `[/}\s*from/g, '}from']`. -/
def rule6L (l : List Char) : List Char := gapRule "\x7d".toList "from".toList false l

/-- Rule 7: `[/export\s*{/g, 'export{']`. -/
def rule7L (l : List Char) : List Char := gapRule "export".toList "\x7b".toList false l

/-- Rule 8: `[/export\s+type/g, 'export type']`. -/
def rule8L (l : List Char) : List Char := gapRule "export".toList "type".toList true l

/-- Rule 9: `[/export\s+const/g, 'export const']`. -/
def rule9L (l : List Char) : List Char := gapRule "export".toList "const".toList true l

/-- Rule 10: `[/export\s+enum/g, 'export enum']`. -/
def rule10L (l : List Char) : List Char := gapRule "export".toList "enum".toList true l

/-- Rule 11: `[/export\s+interface/g, 'export interface']`. -/
def rule11L (l : List Char) : List Char := gapRule "export".toList "interface".toList true l

/-- Head match for `type\s+(\w+)\s*=`: on success returns the captured
word and the input remaining after the `=`. -/
def typeEqMatch (l : List Char) : Option (List Char × List Char) :=
  match litRest "type".toList l with
  | none => none
  | some r =>
    if (r.takeWhile isWsChar).isEmpty then none
    else
      let r2 := r.dropWhile isWsChar
      if (r2.takeWhile isWordChar).isEmpty then none
      else
        match litRest "=".toList ((r2.dropWhile isWordChar).dropWhile isWsChar) with
        | none => none
        | some r4 => some (r2.takeWhile isWordChar, r4)

/-- Fueled scanner for rule 12: `[/type\s+(\w+)\s*=/g, 'type $1=']`. -/
def rule12Go : Nat → List Char → List Char
  | 0, l => l
  | _ + 1, [] => []
  | n + 1, c :: cs =>
    match typeEqMatch (c :: cs) with
    | some (w, rest) => "type ".toList ++ w ++ '=' :: rule12Go n rest
    | none => c :: rule12Go n cs

/-- Rule 12 of `compressionRules`. -/
def rule12L (l : List Char) : List Char := rule12Go l.length l

/-- Fueled scanner for rule 13: `[/:\s*([A-Za-z])/g, ':$1']`: a colon, an
optional whitespace gap, then a letter; the match (colon through letter)
is replaced by the colon and the letter. -/
def rule13Go : Nat → List Char → List Char
  | 0, l => l
  | _ + 1, [] => []
  | n + 1, c :: cs =>
    if c = ':' then
      match cs.dropWhile isWsChar with
      | [] => c :: rule13Go n cs
      | d :: ds =>
        if isAsciiLetter d then ':' :: d :: rule13Go n ds
        else c :: rule13Go n cs
    else c :: rule13Go n cs

/-- Rule 13 of `compressionRules`. -/
def rule13L (l : List Char) : List Char := rule13Go l.length l

/-- The ordered rule table `compressionRules` of the source, each regex
rule embedded as a character-list transformer. -/
def compressionRules : List (List Char → List Char) :=
  [rule1L, rule2L, rule3L, rule4L, rule5L, rule6L, rule7L,
   rule8L, rule9L, rule10L, rule11L, rule12L, rule13L]

/-- `applyRule` of the source: apply one rule to the content. -/
def applyRule (content : List Char) (rule : List Char → List Char) : List Char :=
  rule content

/-- Split on newlines, exactly like JavaScript `content.split('\n')`. -/
def splitNlL : List Char → List (List Char)
  | [] => [[]]
  | c :: cs =>
    if c = '\n' then [] :: splitNlL cs
    else match splitNlL cs with
      | [] => [[c]]
      | t :: ts => (c :: t) :: ts

/-- JavaScript `String.prototype.trim` on a character list. -/
def trimL (l : List Char) : List Char :=
  ((l.dropWhile isWsChar).reverse.dropWhile isWsChar).reverse

/-- `processLines` of the source: split into lines, trim each, drop empty
lines, join with no separator. -/
def processLinesL (content : List Char) : List Char :=
  (((splitNlL content).map trimL).filter (fun line => !line.isEmpty)).flatten

/-- `advancedCompress` of the source on character lists: fold the rule
table over the content, then `processLines`. -/
def advancedCompressL (content : List Char) : List Char :=
  processLinesL (compressionRules.foldl applyRule content)

/-- `advancedCompress` of the source — the Textual Normalizer. -/
def advancedCompress (content : String) : String :=
  ⟨advancedCompressL content.data⟩

/-- Lexical classes of the token model used to state the token-preservation
property: comments, string and template literals, identifier-like words,
whitespace runs, and single symbol characters. -/
inductive TokKind where
  | commentTok
  | stringTok
  | wordTok
  | wsTok
  | symTok
deriving DecidableEq

/-- A token: its lexical class and its exact characters. -/
structure Tok where
  kind : TokKind
  chars : List Char
deriving DecidableEq

/-- Characters of a line comment body: everything up to (not including)
the next newline. -/
def lineCommentSpan (l : List Char) : List Char × List Char :=
  (l.takeWhile (fun c => c ≠ '\n'), l.dropWhile (fun c => c ≠ '\n'))

/-- Characters of a block comment body: everything up to and including the
closing delimiter (to the end of input if unterminated, matching the
error-tolerant parse of the spec). -/
def blockCommentSpan : List Char → List Char × List Char
  | [] => ([], [])
  | '*' :: '/' :: rest => (['*', '/'], rest)
  | c :: cs =>
    let r := blockCommentSpan cs
    (c :: r.1, r.2)

/-- Characters of a string/template literal after the opening quote `q`:
everything up to and including the closing quote, honouring backslash
escapes (to the end of input if unterminated). -/
def stringSpan (q : Char) : List Char → List Char × List Char
  | [] => ([], [])
  | '\\' :: c :: cs =>
    let r := stringSpan q cs
    ('\\' :: c :: r.1, r.2)
  | c :: cs =>
    if c = q then ([c], cs)
    else
      let r := stringSpan q cs
      (c :: r.1, r.2)

/-- Is `c` a string or template literal opening quote (single quote,
double quote, or backtick)? -/
def isQuoteChar (c : Char) : Bool :=
  c = Char.ofNat 39 || c = '"' || c = Char.ofNat 96

/-- Fueled lexer for the token model: comments, string/template literals,
whitespace runs, word runs, single symbol characters. -/
def tokenizeF : Nat → List Char → List Tok
  | 0, _ => []
  | _ + 1, [] => []
  | n + 1, '/' :: '/' :: rest =>
    let s := lineCommentSpan rest
    ⟨.commentTok, '/' :: '/' :: s.1⟩ :: tokenizeF n s.2
  | n + 1, '/' :: '*' :: rest =>
    let s := blockCommentSpan rest
    ⟨.commentTok, '/' :: '*' :: s.1⟩ :: tokenizeF n s.2
  | n + 1, c :: cs =>
    if isQuoteChar c then
      let s := stringSpan c cs
      ⟨.stringTok, c :: s.1⟩ :: tokenizeF n s.2
    else if isWsChar c then
      ⟨.wsTok, c :: cs.takeWhile isWsChar⟩ :: tokenizeF n (cs.dropWhile isWsChar)
    else if isWordChar c then
      ⟨.wordTok, c :: cs.takeWhile isWordChar⟩ :: tokenizeF n (cs.dropWhile isWordChar)
    else
      ⟨.symTok, [c]⟩ :: tokenizeF n cs

/-- Token sequence of a character list. -/
def tokenizeL (l : List Char) : List Tok := tokenizeF l.length l

/-- Modelled from the spec: the external TypeScript parse/print capability
used by `removeCommentsWithAST` (the `typescript` package) is not part of
this repository.  Per spec section 4.1 and section 6 it removes every
comment token while preserving all non-comment tokens, their order and
their formatting, distinguishing comment syntax from comment-like content
inside string/template literals, and is error-tolerant.  Modelled as: lex
the text into comment / string / word / whitespace / symbol tokens and
re-concatenate every non-comment token in order. -/
def stripCommentsL (l : List Char) : List Char :=
  (((tokenizeL l).filter (fun t => t.kind ≠ .commentTok)).map Tok.chars).flatten

/-- `removeCommentsWithAST` of the source — the Structural Comment
Stripper (its parser/printer collaborator is spec-modelled, see
`stripCommentsL`). -/
def removeCommentsWithAST (content : String) : String :=
  ⟨stripCommentsL content.data⟩

/-- `CompressFunction` of the source: a text transformer. -/
def CompressFunction : Type := String → String

/-- `pipe` of `utils.ts`: left-to-right composition. -/
def pipe (f : CompressFunction) (g : CompressFunction) : CompressFunction :=
  fun a => g (f a)

/-- `createCompressionPipeline` of the source:
`functions.reduce((acc, fn) => pipe(acc, fn))`.  JavaScript `reduce`
without an initial value takes the first element as the accumulator (and
throws on an empty argument list, so the argument list is modelled as a
head element plus the remaining functions). -/
def createCompressionPipeline (f : CompressFunction) (fs : List CompressFunction) :
    CompressFunction :=
  fs.foldl pipe f

/-- `defaultCompressionPipeline` of the source:
`createCompressionPipeline(removeCommentsWithAST, advancedCompress)`. -/
def defaultCompressionPipeline : CompressFunction :=
  createCompressionPipeline removeCommentsWithAST [advancedCompress]

/-- Fueled base-2 logarithm on naturals (`⌊log₂ n⌋` when the fuel is at
least `n ≥ 1`). -/
def natLog2F : Nat → Nat → Nat
  | 0, _ => 0
  | f + 1, n => if n ≤ 1 then 0 else natLog2F f (n / 2) + 1

/-- Floor base-2 logarithm for `n ≥ 1`. -/
def natLog2 (n : Nat) : Nat := natLog2F n n

/-- An exact rational as an integer pair (numerator, positive
denominator), kept unreduced so every operation is plain integer
arithmetic. -/
structure Q2 where
  num : Int
  den : Int
deriving DecidableEq

/-- Embed a natural number. -/
def q2OfNat (n : Nat) : Q2 := ⟨n, 1⟩

/-- Exact rational subtraction on pairs. -/
def q2Sub (a b : Q2) : Q2 := ⟨a.num * b.den - b.num * a.den, a.den * b.den⟩

/-- Exact rational multiplication on pairs. -/
def q2Mul (a b : Q2) : Q2 := ⟨a.num * b.num, a.den * b.den⟩

/-- Exact rational division on pairs, keeping the denominator positive
(the divisor is never zero on the guarded path of `calculateStats`). -/
def q2Div (a b : Q2) : Q2 :=
  if b.num < 0 then ⟨-(a.num * b.den), a.den * (-b.num)⟩
  else ⟨a.num * b.den, a.den * b.num⟩

/-- The rational value represented by a pair. -/
def q2Val (a : Q2) : ℚ := (a.num : ℚ) / (a.den : ℚ)

/-- Does exponent `e` scale the positive rational `p / q` into the
binary64 significand range `[2^52, 2^53)`? -/
def fpExpOk (p q : Nat) (e : Int) : Bool :=
  let pq : Nat × Nat := if 0 ≤ e then (p, q * 2 ^ e.toNat) else (p * 2 ^ (-e).toNat, q)
  2 ^ 52 * pq.2 ≤ pq.1 && pq.1 < 2 ^ 53 * pq.2

/-- Round an exact rational to the nearest IEEE 754 binary64 value (round
to nearest, ties to even), as an exact rational.  Faithful on the normal
finite range of binary64, which covers every intermediate value of the
ratio computation for sizes below `2 ^ 53`; JavaScript number arithmetic
is binary64 arithmetic. -/
def fpRound (a : Q2) : Q2 :=
  let p := a.num.natAbs
  let q := a.den.natAbs
  if p = 0 then ⟨0, 1⟩
  else
    let e0 : Int := (natLog2 p : Int) - (natLog2 q : Int) - 52
    let e := if fpExpOk p q (e0 - 1) then e0 - 1 else if fpExpOk p q e0 then e0 else e0 + 1
    let pq : Nat × Nat := if 0 ≤ e then (p, q * 2 ^ e.toNat) else (p * 2 ^ (-e).toNat, q)
    let n0 := pq.1 / pq.2
    let twice := 2 * (pq.1 - n0 * pq.2)
    let n : Nat := if twice < pq.2 then n0
                   else if pq.2 < twice then n0 + 1
                   else if n0 % 2 = 0 then n0 else n0 + 1
    let sgn : Int := if a.num < 0 then -1 else 1
    if 0 ≤ e then ⟨sgn * n * 2 ^ e.toNat, 1⟩ else ⟨sgn * n, 2 ^ (-e).toNat⟩

/-- Binary64 division (correctly rounded, as JavaScript `/` is). -/
def fpDiv (a b : Q2) : Q2 := fpRound (q2Div a b)

/-- Binary64 subtraction (correctly rounded, as JavaScript `-` is). -/
def fpSub (a b : Q2) : Q2 := fpRound (q2Sub a b)

/-- Binary64 multiplication (correctly rounded, as JavaScript `*` is). -/
def fpMul (a b : Q2) : Q2 := fpRound (q2Mul a b)

/-- JavaScript `Math.round`: nearest integer, ties toward positive
infinity; applied exactly to its (binary64, hence rational) argument,
this is `⌊x + 1/2⌋`. -/
def jsMathRound (a : Q2) : Int := Int.fdiv (2 * a.num + a.den) (2 * a.den)

/-- `FileStats` of the source.  The source field `ratio` is named
`ratioPercent` here. -/
structure FileStats where
  originalSize : Nat
  compressedSize : Nat
  ratioPercent : Int
deriving DecidableEq

/-- `calculateStats` of `utils.ts`:
`ratio = originalSize > 0 ? Math.round((1 - compressedSize / originalSize) * 100) : 0`,
with the arithmetic performed in binary64 as JavaScript does. -/
def calculateStats (originalSize compressedSize : Nat) : FileStats :=
  { originalSize := originalSize
    compressedSize := compressedSize
    ratioPercent :=
      if 0 < originalSize then
        jsMathRound (fpMul (fpSub (q2OfNat 1) (fpDiv (q2OfNat compressedSize) (q2OfNat originalSize))) (q2OfNat 100))
      else 0 }

/-- `ProcessedFile` of the source. -/
structure ProcessedFile where
  path : String
  originalContent : String
  compressedContent : String
  stats : FileStats
deriving DecidableEq

/-- The pure content of `processFile` of the source: compress the file
content with the given pipeline and compute its stats (the file-system
read that produced `originalContent` is the caller's). -/
def processFile (filePath : String) (originalContent : String)
    (compress : CompressFunction) : ProcessedFile :=
  let compressedContent := compress originalContent
  { path := filePath
    originalContent := originalContent
    compressedContent := compressedContent
    stats := calculateStats originalContent.length compressedContent.length }

/-- Modelled from the spec: `getRelativePath` wraps the external
`node:path` `relative` call, then replaces backslashes by slashes.
Modelled for the common case of a file below the base directory: strip
the `baseDir ++ "/"` prefix, otherwise keep the path; then the backslash
replacement of the source. -/
def getRelativePath (filePath baseDir : String) : String :=
  let rel :=
    if (baseDir.data ++ ['/']).isPrefixOf filePath.data then
      filePath.data.drop (baseDir.data.length + 1)
    else filePath.data
  ⟨rel.map (fun c => if c = '\\' then '/' else c)⟩

/-- `formatFileOutput` of the source: a compact inline tag by default, a
block-delimited tag (with a leading newline) when structure preservation
is requested. -/
def formatFileOutput (file : ProcessedFile) (baseDir : String)
    (preserveStructure : Bool) : String :=
  let relativePath := getRelativePath file.path baseDir
  if preserveStructure then
    "\n/*=== " ++ relativePath ++ " ===*/\n" ++ file.compressedContent ++ "\n"
  else
    "/*" ++ relativePath ++ "*/" ++ file.compressedContent

/-- `aggregateStats` of the source: fold summing the per-file stats sizes,
starting from zero. -/
def aggregateStats (files : List ProcessedFile) : Nat × Nat :=
  files.foldl
    (fun acc file => (acc.1 + file.stats.originalSize, acc.2 + file.stats.compressedSize))
    (0, 0)

/-- `generateOutput` of the source: format every file and join with a
newline in structure-preserving mode, with no separator otherwise. -/
def generateOutput (files : List ProcessedFile) (baseDir : String)
    (preserveStructure : Bool) : String :=
  String.intercalate (if preserveStructure then "\n" else "")
    (files.map (fun file => formatFileOutput file baseDir preserveStructure))

/-- `CompressResult` of the source. -/
structure CompressResult where
  files : List ProcessedFile
  totalStats : FileStats
  output : String
deriving DecidableEq

/-- The pure content of `compressTypeScriptFiles` of the source, the Batch
Aggregator: the discovered files arrive as (path, content) pairs (file
discovery and the reads are the I/O boundary).  Throws — modelled as
`Except.error` — when no files were found; otherwise processes every file
with the default pipeline, generates the output and computes the total
stats from the summed original sizes and the length of the final
concatenated output string. -/
def compressTypeScriptFilesPure (targetDir : String)
    (fileContents : List (String × String)) (preserveStructure : Bool) :
    Except String CompressResult :=
  if fileContents = [] then
    .error ("No TypeScript files found in " ++ targetDir)
  else
    let processedFiles :=
      fileContents.map (fun fc => processFile fc.1 fc.2 defaultCompressionPipeline)
    let output := generateOutput processedFiles targetDir preserveStructure
    let totalStats := calculateStats (aggregateStats processedFiles).1 output.length
    .ok { files := processedFiles, totalStats := totalStats, output := output }

/-- Stable insertion of a natural into an ascending list. -/
def insertLe (x : Nat) : List Nat → List Nat
  | [] => [x]
  | y :: ys => if x ≤ y then x :: y :: ys else y :: insertLe x ys

/-- Stable ascending sort, as `Array.from(set).sort((a, b) => a - b)`. -/
def sortNat : List Nat → List Nat
  | [] => []
  | x :: xs => insertLe x (sortNat xs)

/-- The selection-resolution step of `compressSelectedFiles` of the
source: sort the selected indices ascending, map each to its file
(`files[i]!`), and `filter(Boolean)`, which drops out-of-range lookups and
empty strings.  The source holds the selection in a `Set`, so the index
list is duplicate-free in every actual call. -/
def resolveSelection (files : List String) (selectedIndices : List Nat) : List String :=
  ((sortNat selectedIndices).filterMap (fun i => files.get? i)).filter (fun s => !s.isEmpty)

/-- The pure content of `compressSelectedFiles` of the source: resolve the
selection (throwing — modelled as `Except.error` — when it is empty), read
and compress each selected file (`contents` models the reads), format each
with the same tag templates, join, and compute total stats from the
summed original lengths and the final output length. -/
def compressSelectedFilesPure (files : List String) (selectedIndices : List Nat)
    (contents : String → String) (baseDir : String) (preserveStructure : Bool) :
    Except String (String × FileStats × Nat) :=
  let selectedFiles := resolveSelection files selectedIndices
  if selectedFiles = [] then
    .error "No files selected"
  else
    let results := selectedFiles.map
      (fun file => (file, contents file, defaultCompressionPipeline (contents file)))
    let output := String.intercalate (if preserveStructure then "\n" else "")
      (results.map (fun r =>
        if preserveStructure then
          "\n/*=== " ++ getRelativePath r.1 baseDir ++ " ===*/\n" ++ r.2.2 ++ "\n"
        else
          "/*" ++ getRelativePath r.1 baseDir ++ "*/" ++ r.2.2))
    let totalOriginal := (results.map (fun r => r.2.1.length)).sum
    .ok (output, calculateStats totalOriginal output.length, selectedFiles.length)

/-- JavaScript `String.prototype.endsWith` on the embedded strings. -/
def strEndsWith (s suffix : String) : Bool :=
  suffix.data.isSuffixOf s.data

/-- Modelled from the spec: `patternToRegex` turns a glob-style pattern
into a `RegExp` (each `*` becoming `.*`) and the filter calls
`regex.test(fileName)` (an unanchored search).  Modelled as: the pattern's
literal segments between `*`s occur in the file name in order, the search
being unanchored on both ends.  `claim_C10` holds for every test
function, so nothing rests on this model. -/
def globSegsMatch : List (List Char) → List Char → Bool
  | [], _ => true
  | [seg], l => decide (∃ i ≤ l.length, seg.isPrefixOf (l.drop i))
  | seg :: segs, l =>
    decide (∃ i ≤ l.length, seg.isPrefixOf (l.drop i) ∧
      globSegsMatch segs (l.drop (i + seg.length)) = true)

/-- Modelled from the spec: unanchored glob-style match of a pattern
against a name, `*` matching any character run. -/
def globTest (pattern name : String) : Bool :=
  globSegsMatch (pattern.data.splitOn '*') name.data

/-- `createFileFilter` of `utils.ts`, parametric in the pattern-test
function: reject names not ending in `.ts`, then reject names matching an
exclude pattern, then accept names matching an include pattern. -/
def createFileFilterWith (test : String → String → Bool)
    (includePatterns excludePatterns : List String) : String → Bool :=
  fun fileName =>
    if !strEndsWith fileName ".ts" then false
    else if excludePatterns.any (fun p => test p fileName) then false
    else includePatterns.any (fun p => test p fileName)

/-- `createFileFilter` of `utils.ts` with the spec-modelled glob test. -/
def createFileFilter (includePatterns excludePatterns : List String) : String → Bool :=
  createFileFilterWith globTest includePatterns excludePatterns

/-- Does `pat` occur as a contiguous substring of the list? -/
def hasInfixL (pat : List Char) : List Char → Bool
  | [] => pat.isEmpty
  | c :: cs => pat.isPrefixOf (c :: cs) || hasInfixL pat cs

/-- Adjacency constraint of the normalized form: no whitespace character
next to a whitespace or punctuation character (in either order). -/
def pairOk (c d : Char) : Bool :=
  !(isWsChar c && isWsChar d) && !(isWsChar c && isPunctChar d) &&
  !(isPunctChar c && isWsChar d)

/-- All adjacent pairs of the list satisfy `pairOk`. -/
def pairsOk : List Char → Bool
  | [] => true
  | [_] => true
  | c :: d :: r => pairOk c d && pairsOk (d :: r)

/-- Every whitespace character of the list is a plain space. -/
def spacesOnly (l : List Char) : Bool :=
  l.all (fun c => !isWsChar c || c = ' ')

/-- Normalized form: whitespace is only single spaces, never adjacent to
punctuation or to other whitespace, and never at either edge.  Such text
is a fixed point of the Textual Normalizer. -/
def isNormalized (l : List Char) : Bool :=
  spacesOnly l && pairsOk l &&
  (match l with | [] => true | c :: _ => !isWsChar c) &&
  (match l.getLast? with | none => true | some c => !isWsChar c)

/-- The significant tokens of a text: everything except whitespace and
comments. -/
def sigToks (l : List Char) : List Tok :=
  (tokenizeL l).filter (fun t => t.kind ≠ TokKind.wsTok && t.kind ≠ TokKind.commentTok)

/-- The tokens of a text with only whitespace dropped (comments kept). -/
def outToks (l : List Char) : List Tok :=
  (tokenizeL l).filter (fun t => t.kind ≠ TokKind.wsTok)

/-- An apostrophe (single quote). -/
def apoC : Char := Char.ofNat 39

/-- A comment-free input whose string literal contains whitespace next to
a colon. -/
def c1input : String := "const s = \"a : b\";"

/-- The import-statement scenario input of the spec. -/
def c5input : String :=
  "import \x7b foo \x7d from " ++ ⟨[apoC]⟩ ++ "bar" ++ ⟨[apoC]⟩ ++ ";"

/-- The fragment the spec claims the Textual Normalizer produces. -/
def c5claimed : String :=
  "import\x7bfoo\x7dfrom" ++ ⟨[apoC]⟩ ++ "bar" ++ ⟨[apoC]⟩ ++ ";"

/-- The fragment the Textual Normalizer actually produces (the space
before the string literal survives: a quote is not in the punctuation
set). -/
def c5actual : String :=
  "import\x7bfoo\x7dfrom " ++ ⟨[apoC]⟩ ++ "bar" ++ ⟨[apoC]⟩ ++ ";"

/-- An input on which the Textual Normalizer is not idempotent: joining
the lines merges `ty` and `pe` into the keyword `type`, so the second
pass matches `type\s+(\w+)\s*=` where the first pass could not. -/
def c6input : String := "ty\npe  foo=1"

/-- A processed file used to exhibit the block-mode tag format. -/
def c4file : ProcessedFile :=
  { path := "src/a.ts"
    originalContent := "let a  =  1;"
    compressedContent := "let a=1;"
    stats := calculateStats 12 8 }

/-- A typical input whose normalized output witnesses the fixed-point
property. -/
def c6witnessInput : String := "export type A = 1;\nlet x : number = 2;"


theorem nonWsOf_append (a b : List Char) : nonWsOf (a ++ b) = nonWsOf a ++ nonWsOf b := by
  simp [nonWsOf, List.filter_append]

theorem nonWsOf_cons_ws {c : Char} (hc : isWsChar c = true) (l : List Char) :
    nonWsOf (c :: l) = nonWsOf l := by
  simp [nonWsOf, List.filter_cons, hc]

theorem nonWsOf_cons_nonws {c : Char} (hc : isWsChar c = false) (l : List Char) :
    nonWsOf (c :: l) = c :: nonWsOf l := by
  simp [nonWsOf, List.filter_cons, hc]

theorem nonWsOf_nil_of_all_ws {l : List Char} (h : ∀ c ∈ l, isWsChar c = true) :
    nonWsOf l = [] := by
  induction l with
  | nil => rfl
  | cons c cs ih =>
    rw [nonWsOf_cons_ws (h c (by simp))]
    exact ih (fun d hd => h d (by simp [hd]))

theorem nonWsOf_reverse (l : List Char) : nonWsOf l.reverse = (nonWsOf l).reverse := by
  simp [nonWsOf, List.filter_reverse]

theorem nonWsOf_takeWhile_ws (l : List Char) : nonWsOf (l.takeWhile isWsChar) = [] :=
  nonWsOf_nil_of_all_ws (fun _ hc => List.mem_takeWhile_imp hc)

theorem nonWsOf_dropWhile_ws (l : List Char) : nonWsOf (l.dropWhile isWsChar) = nonWsOf l := by
  conv_rhs => rw [← List.takeWhile_append_dropWhile (p := isWsChar) (l := l)]
  rw [nonWsOf_append, nonWsOf_takeWhile_ws, List.nil_append]

theorem ws_char_cases {c : Char} (h : isWsChar c = true) :
    c = ' ' ∨ c = '\t' ∨ c = '\n' ∨ c = '\r' ∨ c = '\x0b' ∨ c = '\x0c' := by
  simp only [isWsChar, Bool.or_eq_true, decide_eq_true_eq] at h
  tauto

theorem punct_not_ws {c : Char} (hp : isPunctChar c = true) : isWsChar c = false := by
  cases hw : isWsChar c
  · rfl
  · rcases ws_char_cases hw with h | h | h | h | h | h <;> subst h <;> simp [isPunctChar] at hp

theorem rule1Go_nonWs : ∀ (l : List Char) (st : Option (List Char)),
    (∀ buf, st = some buf → ∀ c ∈ buf, isWsChar c = true) →
    nonWsOf (rule1Go st l) = nonWsOf l := by
  intro l
  induction l with
  | nil =>
    intro st h
    match st with
    | none => rfl
    | some buf =>
      simp only [rule1Go]
      rw [nonWsOf_reverse, nonWsOf_nil_of_all_ws (h buf rfl)]
      rfl
  | cons c cs ih =>
    intro st h
    match st with
    | none =>
      simp only [rule1Go]
      by_cases hc : c = '\n'
      · subst hc
        rw [if_pos rfl, nonWsOf_cons_ws (by decide), nonWsOf_cons_ws (by decide)]
        exact ih (some []) (by simp)
      · rw [if_neg hc]
        by_cases hw : isWsChar c = true
        · rw [nonWsOf_cons_ws hw, nonWsOf_cons_ws hw]; exact ih none (by simp)
        · rw [nonWsOf_cons_nonws (by simpa using hw), nonWsOf_cons_nonws (by simpa using hw)]
          rw [ih none (by simp)]
    | some buf =>
      simp only [rule1Go]
      by_cases hc : c = '\n'
      · subst hc
        rw [if_pos rfl, nonWsOf_cons_ws (by decide)]
        exact ih (some []) (by simp)
      · rw [if_neg hc]
        by_cases hw : isWsChar c = true
        · rw [if_pos hw, nonWsOf_cons_ws hw]
          refine ih (some (c :: buf)) ?_
          intro b hb d hd
          cases hb
          rcases List.mem_cons.mp hd with h1 | h2
          · subst h1; exact hw
          · exact h buf rfl d h2
        · rw [if_neg hw, nonWsOf_append, nonWsOf_reverse,
            nonWsOf_nil_of_all_ws (h buf rfl), nonWsOf_cons_nonws (by simpa using hw),
            nonWsOf_cons_nonws (by simpa using hw), ih none (by simp)]
          rfl

theorem rule1L_nonWs (l : List Char) : nonWsOf (rule1L l) = nonWsOf l :=
  rule1Go_nonWs l none (by simp)

theorem rule2Go_nonWs : ∀ (l : List Char) (d : Bool), nonWsOf (rule2Go d l) = nonWsOf l := by
  intro l
  induction l with
  | nil => intro d; rfl
  | cons c cs ih =>
    intro d
    simp only [rule2Go]
    by_cases hw : (d && isWsChar c) = true
    · rw [if_pos hw, ih true, nonWsOf_cons_ws ((Bool.and_eq_true d (isWsChar c)).mp hw).2]
    · rw [if_neg hw]
      by_cases hc : c = '\n'
      · subst hc
        rw [if_pos rfl, nonWsOf_cons_ws (by decide), nonWsOf_cons_ws (by decide), ih true]
      · rw [if_neg hc]
        by_cases hw2 : isWsChar c = true
        · rw [nonWsOf_cons_ws hw2, nonWsOf_cons_ws hw2, ih false]
        · rw [nonWsOf_cons_nonws (by simpa using hw2), nonWsOf_cons_nonws (by simpa using hw2),
            ih false]

theorem rule2L_nonWs (l : List Char) : nonWsOf (rule2L l) = nonWsOf l :=
  rule2Go_nonWs l true

theorem trailKeep_all_ws {buf : List Char} (h : ∀ c ∈ buf, isWsChar c = true) :
    ∀ c ∈ trailKeep buf, isWsChar c = true := by
  intro c hc
  unfold trailKeep at hc
  by_cases hb : buf.contains '\n'
  · rw [if_pos hb] at hc
    rw [List.mem_reverse, List.mem_append] at hc
    rcases hc with h1 | h2
    · exact h c (List.takeWhile_sublist _ |>.mem h1)
    · simp at h2; subst h2; decide
  · rw [if_neg hb] at hc
    exact h c (List.mem_reverse.mp hc)

theorem rule3Go_nonWs : ∀ (l : List Char) (buf : List Char),
    (∀ c ∈ buf, isWsChar c = true) → nonWsOf (rule3Go buf l) = nonWsOf l := by
  intro l
  induction l with
  | nil => intro buf _; rfl
  | cons c cs ih =>
    intro buf h
    simp only [rule3Go]
    by_cases hw : isWsChar c = true
    · rw [if_pos hw, nonWsOf_cons_ws hw]
      refine ih (c :: buf) ?_
      intro d hd
      rcases List.mem_cons.mp hd with h1 | h2
      · subst h1; exact hw
      · exact h d h2
    · rw [if_neg hw, nonWsOf_append, nonWsOf_nil_of_all_ws (trailKeep_all_ws h),
        nonWsOf_cons_nonws (by simpa using hw), nonWsOf_cons_nonws (by simpa using hw),
        ih [] (by simp)]
      rfl

theorem rule3L_nonWs (l : List Char) : nonWsOf (rule3L l) = nonWsOf l :=
  rule3Go_nonWs l [] (by simp)

theorem rule4Go_nonWs : ∀ (l : List Char) (afterP : Bool) (pend : List Char),
    (∀ c ∈ pend, isWsChar c = true) → nonWsOf (rule4Go afterP pend l) = nonWsOf l := by
  intro l
  induction l with
  | nil =>
    intro afterP pend h
    simp only [rule4Go]
    rw [nonWsOf_reverse, nonWsOf_nil_of_all_ws h]
    rfl
  | cons c cs ih =>
    intro afterP pend h
    simp only [rule4Go]
    by_cases hp : isPunctChar c = true
    · rw [if_pos hp, nonWsOf_cons_nonws (punct_not_ws hp), nonWsOf_cons_nonws (punct_not_ws hp),
        ih true [] (by simp)]
    · rw [if_neg hp]
      by_cases hw : isWsChar c = true
      · rw [if_pos hw, nonWsOf_cons_ws hw]
        cases afterP with
        | true => simpa using ih true [] (by simp)
        | false =>
          simp only [Bool.false_eq_true, if_false]
          refine ih false (c :: pend) ?_
          intro d hd
          rcases List.mem_cons.mp hd with h1 | h2
          · subst h1; exact hw
          · exact h d h2
      · rw [if_neg hw, nonWsOf_append, nonWsOf_reverse, nonWsOf_nil_of_all_ws h,
          nonWsOf_cons_nonws (by simpa using hw), nonWsOf_cons_nonws (by simpa using hw),
          ih false [] (by simp)]
        rfl

theorem rule4L_nonWs (l : List Char) : nonWsOf (rule4L l) = nonWsOf l :=
  rule4Go_nonWs l false [] (by simp)

theorem letter_not_ws {c : Char} (h : isAsciiLetter c = true) : isWsChar c = false := by
  cases hw : isWsChar c
  · rfl
  · rcases ws_char_cases hw with h1 | h1 | h1 | h1 | h1 | h1 <;> subst h1 <;>
      simp [isAsciiLetter] at h

theorem word_not_ws {c : Char} (h : isWordChar c = true) : isWsChar c = false := by
  cases hw : isWsChar c
  · rfl
  · rcases ws_char_cases hw with h1 | h1 | h1 | h1 | h1 | h1 <;> subst h1 <;>
      simp [isWordChar] at h

theorem litRest_eq : ∀ (p l r : List Char), litRest p l = some r → l = p ++ r := by
  intro p
  induction p with
  | nil =>
    intro l r h
    simp only [litRest, Option.some_inj] at h
    simp [h]
  | cons a as ih =>
    intro l r h
    match l with
    | [] => exact absurd h (by simp [litRest])
    | c :: cs =>
      simp only [litRest] at h
      by_cases hac : a = c
      · rw [if_pos hac] at h
        subst hac
        rw [List.cons_append]
        exact congrArg _ (ih cs r h)
      · rw [if_neg hac] at h
        exact absurd h (by simp)

theorem gapMatch_decomp {kw close : List Char} {needWs : Bool} {l rest : List Char}
    (h : gapMatch kw close needWs l = some rest) :
    ∃ gap, l = kw ++ gap ++ close ++ rest ∧ (∀ c ∈ gap, isWsChar c = true) ∧
      (needWs = true → gap ≠ []) := by
  unfold gapMatch at h
  cases hk : litRest kw l with
  | none => rw [hk] at h; exact absurd h (by simp)
  | some r =>
    rw [hk] at h
    dsimp only at h
    by_cases hn : (needWs && (r.takeWhile isWsChar).isEmpty) = true
    · rw [if_pos hn] at h; exact absurd h (by simp)
    · rw [if_neg hn] at h
      refine ⟨r.takeWhile isWsChar, ?_, fun c hc => List.mem_takeWhile_imp hc, ?_⟩
      · have hr : r = r.takeWhile isWsChar ++ (close ++ rest) := by
          conv_lhs => rw [← List.takeWhile_append_dropWhile (p := isWsChar) (l := r)]
          rw [litRest_eq _ _ _ h]
        rw [litRest_eq kw l r hk]
        conv_lhs => rw [hr]
        simp [List.append_assoc]
      · intro hw hgap
        apply hn
        simp [hw, List.isEmpty_iff, hgap]

theorem gapRuleGo_nonWs (kw close sep : List Char) (needWs : Bool)
    (hsep : ∀ c ∈ sep, isWsChar c = true) :
    ∀ (n : Nat) (l : List Char), nonWsOf (gapRuleGo kw close sep needWs n l) = nonWsOf l := by
  intro n
  induction n with
  | zero => intro l; rfl
  | succ n ih =>
    intro l
    match l with
    | [] => rfl
    | c :: cs =>
      simp only [gapRuleGo]
      cases hm : gapMatch kw close needWs (c :: cs) with
      | some rest =>
        obtain ⟨gap, hdec, hgap, _⟩ := gapMatch_decomp hm
        rw [hdec]
        repeat rw [nonWsOf_append]
        rw [nonWsOf_nil_of_all_ws hgap, nonWsOf_nil_of_all_ws hsep, ih rest]
      | none =>
        by_cases hw : isWsChar c = true
        · rw [nonWsOf_cons_ws hw, nonWsOf_cons_ws hw, ih cs]
        · rw [nonWsOf_cons_nonws (by simpa using hw), nonWsOf_cons_nonws (by simpa using hw),
            ih cs]

theorem gapRule_nonWs (kw close : List Char) (needWs : Bool) (l : List Char) :
    nonWsOf (gapRule kw close needWs l) = nonWsOf l := by
  unfold gapRule
  refine gapRuleGo_nonWs kw close _ needWs ?_ l.length l
  by_cases h : needWs = true
  · simp [h]
    decide
  · simp [h]

theorem typeEqMatch_decomp {l w rest : List Char}
    (h : typeEqMatch l = some (w, rest)) :
    ∃ ws1 ws2, l = "type".toList ++ ws1 ++ w ++ ws2 ++ '=' :: rest ∧
      (∀ c ∈ ws1, isWsChar c = true) ∧ (∀ c ∈ ws2, isWsChar c = true) ∧
      (∀ c ∈ w, isWordChar c = true) ∧ ws1 ≠ [] := by
  unfold typeEqMatch at h
  cases hk : litRest "type".toList l with
  | none => rw [hk] at h; exact absurd h (by simp)
  | some r =>
    rw [hk] at h
    dsimp only at h
    by_cases h1 : (r.takeWhile isWsChar).isEmpty = true
    · rw [if_pos h1] at h; exact absurd h (by simp)
    · rw [if_neg h1] at h
      by_cases h2 : ((r.dropWhile isWsChar).takeWhile isWordChar).isEmpty = true
      · rw [if_pos h2] at h; exact absurd h (by simp)
      · rw [if_neg h2] at h
        cases he : litRest "=".toList
            (((r.dropWhile isWsChar).dropWhile isWordChar).dropWhile isWsChar) with
        | none => rw [he] at h; exact absurd h (by simp)
        | some r4 =>
          rw [he] at h
          dsimp only at h
          rw [Option.some_inj] at h
          have hwr : (r.dropWhile isWsChar).takeWhile isWordChar = w :=
            congrArg Prod.fst h
          have hrest : r4 = rest := congrArg Prod.snd h
          subst hrest
          have heq : ((r.dropWhile isWsChar).dropWhile isWordChar).dropWhile isWsChar
              = '=' :: r4 := by simpa using litRest_eq _ _ _ he
          refine ⟨r.takeWhile isWsChar,
            ((r.dropWhile isWsChar).dropWhile isWordChar).takeWhile isWsChar, ?_, ?_, ?_, ?_, ?_⟩
          · have hr3 : (r.dropWhile isWsChar).dropWhile isWordChar
                = ((r.dropWhile isWsChar).dropWhile isWordChar).takeWhile isWsChar
                  ++ '=' :: r4 := by
              conv_lhs =>
                rw [← List.takeWhile_append_dropWhile (p := isWsChar)
                  (l := (r.dropWhile isWsChar).dropWhile isWordChar)]
              rw [heq]
            have hr2 : r.dropWhile isWsChar
                = w ++ (((r.dropWhile isWsChar).dropWhile isWordChar).takeWhile isWsChar
                  ++ '=' :: r4) := by
              conv_lhs =>
                rw [← List.takeWhile_append_dropWhile (p := isWordChar)
                  (l := r.dropWhile isWsChar)]
                rw [hwr, hr3]
            have hr1 : r = r.takeWhile isWsChar
                ++ (w ++ (((r.dropWhile isWsChar).dropWhile isWordChar).takeWhile isWsChar
                  ++ '=' :: r4)) := by
              conv_lhs => rw [← List.takeWhile_append_dropWhile (p := isWsChar) (l := r)]
              conv_lhs => rw [hr2]
            rw [litRest_eq _ _ _ hk]
            conv_lhs => rw [hr1]
            simp [List.append_assoc]
          · exact fun c hc => List.mem_takeWhile_imp hc
          · exact fun c hc => List.mem_takeWhile_imp hc
          · rw [← hwr]; exact fun c hc => List.mem_takeWhile_imp hc
          · simpa [List.isEmpty_iff] using h1

theorem rule12Go_nonWs : ∀ (n : Nat) (l : List Char),
    nonWsOf (rule12Go n l) = nonWsOf l := by
  intro n
  induction n with
  | zero => intro l; rfl
  | succ n ih =>
    intro l
    match l with
    | [] => rfl
    | c :: cs =>
      simp only [rule12Go]
      cases hm : typeEqMatch (c :: cs) with
      | some p =>
        obtain ⟨w, rest⟩ := p
        dsimp only
        obtain ⟨ws1, ws2, hdec, hws1, hws2, _, _⟩ := typeEqMatch_decomp hm
        rw [hdec]
        repeat rw [nonWsOf_append]
        rw [nonWsOf_nil_of_all_ws hws1, nonWsOf_nil_of_all_ws hws2,
          nonWsOf_cons_nonws (c := '=') (by decide), nonWsOf_cons_nonws (c := '=') (by decide),
          ih rest]
        have ht : nonWsOf "type ".toList = nonWsOf "type".toList := by decide
        rw [ht]
        simp
      | none =>
        by_cases hw : isWsChar c = true
        · rw [nonWsOf_cons_ws hw, nonWsOf_cons_ws hw, ih cs]
        · rw [nonWsOf_cons_nonws (by simpa using hw), nonWsOf_cons_nonws (by simpa using hw),
            ih cs]

theorem rule12L_nonWs (l : List Char) : nonWsOf (rule12L l) = nonWsOf l :=
  rule12Go_nonWs l.length l

theorem rule13Go_nonWs : ∀ (n : Nat) (l : List Char),
    nonWsOf (rule13Go n l) = nonWsOf l := by
  intro n
  induction n with
  | zero => intro l; rfl
  | succ n ih =>
    intro l
    match l with
    | [] => rfl
    | c :: cs =>
      simp only [rule13Go]
      by_cases hc : c = ':'
      · subst hc
        rw [if_pos rfl]
        cases hdw : cs.dropWhile isWsChar with
        | nil =>
          dsimp only
          rw [nonWsOf_cons_nonws (c := ':') (by decide),
            nonWsOf_cons_nonws (c := ':') (by decide), ih cs]
        | cons d ds =>
          dsimp only
          by_cases hd : isAsciiLetter d = true
          · rw [if_pos hd]
            have hcs : cs = cs.takeWhile isWsChar ++ d :: ds := by
              conv_lhs => rw [← List.takeWhile_append_dropWhile (p := isWsChar) (l := cs)]
              rw [hdw]
            rw [nonWsOf_cons_nonws (c := ':') (by decide),
              nonWsOf_cons_nonws (c := ':') (by decide),
              nonWsOf_cons_nonws (c := d) (letter_not_ws hd), hcs, nonWsOf_append,
              nonWsOf_takeWhile_ws, List.nil_append,
              nonWsOf_cons_nonws (c := d) (letter_not_ws hd), ih ds]
          · rw [if_neg hd, nonWsOf_cons_nonws (c := ':') (by decide),
              nonWsOf_cons_nonws (c := ':') (by decide), ih cs]
      · rw [if_neg hc]
        by_cases hw : isWsChar c = true
        · rw [nonWsOf_cons_ws hw, nonWsOf_cons_ws hw, ih cs]
        · rw [nonWsOf_cons_nonws (by simpa using hw), nonWsOf_cons_nonws (by simpa using hw),
            ih cs]

theorem rule13L_nonWs (l : List Char) : nonWsOf (rule13L l) = nonWsOf l :=
  rule13Go_nonWs l.length l

theorem rule5L_nonWs (l : List Char) : nonWsOf (rule5L l) = nonWsOf l := gapRule_nonWs _ _ _ l

theorem rule6L_nonWs (l : List Char) : nonWsOf (rule6L l) = nonWsOf l := gapRule_nonWs _ _ _ l

theorem rule7L_nonWs (l : List Char) : nonWsOf (rule7L l) = nonWsOf l := gapRule_nonWs _ _ _ l

theorem rule8L_nonWs (l : List Char) : nonWsOf (rule8L l) = nonWsOf l := gapRule_nonWs _ _ _ l

theorem rule9L_nonWs (l : List Char) : nonWsOf (rule9L l) = nonWsOf l := gapRule_nonWs _ _ _ l

theorem rule10L_nonWs (l : List Char) : nonWsOf (rule10L l) = nonWsOf l := gapRule_nonWs _ _ _ l

theorem rule11L_nonWs (l : List Char) : nonWsOf (rule11L l) = nonWsOf l := gapRule_nonWs _ _ _ l

theorem splitNlL_ne_nil (l : List Char) : splitNlL l ≠ [] := by
  match l with
  | [] => simp [splitNlL]
  | c :: cs =>
    simp only [splitNlL]
    by_cases hc : c = '\n'
    · rw [if_pos hc]; simp
    · rw [if_neg hc]
      cases h : splitNlL cs <;> simp

theorem splitNlL_flatten_nonWs : ∀ (l : List Char),
    nonWsOf (splitNlL l).flatten = nonWsOf l := by
  intro l
  induction l with
  | nil => rfl
  | cons c cs ih =>
    simp only [splitNlL]
    by_cases hc : c = '\n'
    · subst hc
      rw [if_pos rfl]
      simp only [List.flatten_cons, List.nil_append]
      rw [ih, nonWsOf_cons_ws (by decide)]
    · rw [if_neg hc]
      cases h : splitNlL cs with
      | nil => exact absurd h (splitNlL_ne_nil cs)
      | cons t ts =>
        simp only [List.flatten_cons]
        have hx : c :: t ++ ts.flatten = c :: (splitNlL cs).flatten := by
          rw [h, List.flatten_cons]
          simp
        rw [hx]
        by_cases hw : isWsChar c = true
        · rw [nonWsOf_cons_ws hw, nonWsOf_cons_ws hw, ih]
        · rw [nonWsOf_cons_nonws (by simpa using hw), nonWsOf_cons_nonws (by simpa using hw),
            ih]

theorem trimL_nonWs (l : List Char) : nonWsOf (trimL l) = nonWsOf l := by
  unfold trimL
  rw [nonWsOf_reverse, nonWsOf_dropWhile_ws, nonWsOf_reverse, nonWsOf_dropWhile_ws,
    List.reverse_reverse]

theorem flatten_filter_nonempty (ls : List (List Char)) :
    (ls.filter (fun line => !line.isEmpty)).flatten = ls.flatten := by
  induction ls with
  | nil => rfl
  | cons t ts ih =>
    by_cases h : t.isEmpty = true
    · have ht : t = [] := by simpa [List.isEmpty_iff] using h
      simp [List.filter_cons, h, ht, ih]
    · simp [List.filter_cons, h, ih]

theorem flatten_map_trim_nonWs (ls : List (List Char)) :
    nonWsOf (ls.map trimL).flatten = nonWsOf ls.flatten := by
  induction ls with
  | nil => rfl
  | cons t ts ih =>
    simp only [List.map_cons, List.flatten_cons]
    rw [nonWsOf_append, nonWsOf_append, trimL_nonWs, ih]

theorem processLinesL_nonWs (l : List Char) : nonWsOf (processLinesL l) = nonWsOf l := by
  unfold processLinesL
  rw [flatten_filter_nonempty, flatten_map_trim_nonWs, splitNlL_flatten_nonWs]

theorem advancedCompressL_nonWs (l : List Char) :
    nonWsOf (advancedCompressL l) = nonWsOf l := by
  unfold advancedCompressL compressionRules
  simp only [List.foldl_cons, List.foldl_nil, applyRule]
  rw [processLinesL_nonWs, rule13L_nonWs, rule12L_nonWs, rule11L_nonWs, rule10L_nonWs,
    rule9L_nonWs, rule8L_nonWs, rule7L_nonWs, rule6L_nonWs, rule5L_nonWs, rule4L_nonWs,
    rule3L_nonWs, rule2L_nonWs, rule1L_nonWs]

theorem splitNlL_no_nl : ∀ (l : List Char) (x : List Char), x ∈ splitNlL l → '\n' ∉ x := by
  intro l
  induction l with
  | nil =>
    intro x hx
    simp only [splitNlL, List.mem_singleton] at hx
    subst hx
    simp
  | cons c cs ih =>
    intro x hx
    simp only [splitNlL] at hx
    by_cases hc : c = '\n'
    · rw [if_pos hc] at hx
      rcases List.mem_cons.mp hx with h1 | h2
      · subst h1; simp
      · exact ih x h2
    · rw [if_neg hc] at hx
      cases h : splitNlL cs with
      | nil => exact absurd h (splitNlL_ne_nil cs)
      | cons t ts =>
        rw [h] at hx
        rcases List.mem_cons.mp hx with h1 | h2
        · subst h1
          intro hmem
          rcases List.mem_cons.mp hmem with h3 | h4
          · exact hc h3.symm
          · exact ih t (by rw [h]; simp) h4
        · exact ih x (by rw [h]; simp [h2])

theorem trimL_subset {l : List Char} {c : Char} (h : c ∈ trimL l) : c ∈ l := by
  unfold trimL at h
  rw [List.mem_reverse] at h
  have h1 := (List.dropWhile_sublist (l := (l.dropWhile isWsChar).reverse) isWsChar).mem h
  rw [List.mem_reverse] at h1
  exact (List.dropWhile_sublist isWsChar).mem h1

theorem processLinesL_no_nl (l : List Char) : '\n' ∉ processLinesL l := by
  unfold processLinesL
  intro hmem
  rw [List.mem_flatten] at hmem
  obtain ⟨line, hline, hc⟩ := hmem
  rw [List.mem_filter] at hline
  obtain ⟨hline1, _⟩ := hline
  rw [List.mem_map] at hline1
  obtain ⟨orig, horig, heq⟩ := hline1
  subst heq
  exact splitNlL_no_nl l orig horig (trimL_subset hc)

theorem spacesOnly_mem {l : List Char} {c : Char} (h : spacesOnly l = true) (hc : c ∈ l)
    (hw : isWsChar c = true) : c = ' ' := by
  unfold spacesOnly at h
  rw [List.all_eq_true] at h
  have := h c hc
  simp [hw] at this
  exact this

theorem spacesOnly_no_nl {l : List Char} (h : spacesOnly l = true) :
    ∀ c ∈ l, c ≠ '\n' := by
  intro c hc he
  subst he
  have := spacesOnly_mem h hc (by decide)
  simp at this

theorem spacesOnly_suffix {x y : List Char} (h : spacesOnly (x ++ y) = true) :
    spacesOnly y = true := by
  unfold spacesOnly at *
  rw [List.all_eq_true] at *
  exact fun c hc => h c (List.mem_append_right x hc)

theorem pairsOk_tail {c : Char} {l : List Char} (h : pairsOk (c :: l) = true) :
    pairsOk l = true := by
  match l with
  | [] => rfl
  | d :: r =>
    simp only [pairsOk, Bool.and_eq_true] at h
    exact h.2

theorem pairsOk_head {c d : Char} {r : List Char} (h : pairsOk (c :: d :: r) = true) :
    pairOk c d = true := by
  simp only [pairsOk, Bool.and_eq_true] at h
  exact h.1

theorem pairsOk_suffix : ∀ (x y : List Char), pairsOk (x ++ y) = true → pairsOk y = true := by
  intro x
  induction x with
  | nil => intro y h; simpa using h
  | cons e x' ih =>
    intro y h
    exact ih y (pairsOk_tail (by simpa using h))

theorem pairsOk_adj : ∀ (x : List Char) {l : List Char} {a b : Char} {y : List Char},
    pairsOk l = true → l = x ++ a :: b :: y → pairOk a b = true := by
  intro x
  induction x with
  | nil =>
    intro l a b y h he
    subst he
    exact pairsOk_head h
  | cons e x' ih =>
    intro l a b y h he
    subst he
    exact ih (pairsOk_tail (by simpa using h)) rfl

theorem ws_ws_not_pairOk {a b : Char} (ha : isWsChar a = true) (hb : isWsChar b = true) :
    pairOk a b = false := by
  unfold pairOk
  simp [ha, hb]

theorem ws_punct_not_pairOk {a b : Char} (ha : isWsChar a = true) (hb : isPunctChar b = true) :
    pairOk a b = false := by
  unfold pairOk
  simp [ha, hb, punct_not_ws hb]

theorem punct_ws_not_pairOk {a b : Char} (ha : isPunctChar a = true) (hb : isWsChar b = true) :
    pairOk a b = false := by
  unfold pairOk
  simp [ha, hb, punct_not_ws ha]

theorem rule1Go_id : ∀ (l : List Char), (∀ c ∈ l, c ≠ '\n') → rule1Go none l = l := by
  intro l
  induction l with
  | nil => intro _; rfl
  | cons c cs ih =>
    intro h
    simp only [rule1Go]
    rw [if_neg (h c (by simp))]
    rw [ih (fun d hd => h d (by simp [hd]))]

theorem rule2Go_false_id : ∀ (l : List Char), (∀ c ∈ l, c ≠ '\n') → rule2Go false l = l := by
  intro l
  induction l with
  | nil => intro _; rfl
  | cons c cs ih =>
    intro h
    simp only [rule2Go, Bool.false_and, Bool.false_eq_true, if_false]
    rw [if_neg (h c (by simp))]
    rw [ih (fun d hd => h d (by simp [hd]))]

theorem rule2L_id (l : List Char) (hnl : ∀ c ∈ l, c ≠ '\n')
    (hhead : ∀ c, l.head? = some c → isWsChar c = false) : rule2L l = l := by
  unfold rule2L
  match l with
  | [] => rfl
  | c :: cs =>
    simp only [rule2Go]
    have hc := hhead c rfl
    rw [if_neg (by simp [hc]), if_neg (hnl c (by simp))]
    rw [rule2Go_false_id cs (fun d hd => hnl d (by simp [hd]))]

theorem contains_nl_false {buf : List Char} (h : ∀ c ∈ buf, c ≠ '\n') :
    buf.contains '\n' = false := by
  have : '\n' ∉ buf := fun hm => h '\n' hm rfl
  simpa using this

theorem rule3Go_id : ∀ (l : List Char) (buf : List Char),
    (∀ c ∈ buf, c ≠ '\n') → (∀ c ∈ l, c ≠ '\n') →
    (match l.getLast? with | none => buf = [] | some c => isWsChar c = false) →
    rule3Go buf l = buf.reverse ++ l := by
  intro l
  induction l with
  | nil =>
    intro buf _ _ hlast
    simp only [List.getLast?_nil] at hlast
    subst hlast
    rfl
  | cons a cs ih =>
    intro buf hbuf hnl hlast
    have hanl : a ≠ '\n' := hnl a (by simp)
    have hnlcs : ∀ c ∈ cs, c ≠ '\n' := fun c hc => hnl c (by simp [hc])
    simp only [rule3Go]
    by_cases hw : isWsChar a = true
    · rw [if_pos hw]
      cases cs with
      | nil =>
        simp only [List.getLast?_singleton] at hlast
        rw [hlast] at hw
        exact absurd hw (by simp)
      | cons d ds =>
        rw [List.getLast?_cons_cons] at hlast
        rw [ih (a :: buf)
          (fun c hc => (List.mem_cons.mp hc).elim (fun h1 => h1 ▸ hanl) (hbuf c)) hnlcs hlast]
        simp
    · rw [if_neg hw]
      have htk : trailKeep buf = buf.reverse := by
        unfold trailKeep
        rw [if_neg (by rw [contains_nl_false hbuf]; exact Bool.false_ne_true)]
      rw [htk]
      cases cs with
      | nil => rfl
      | cons d ds =>
        rw [List.getLast?_cons_cons] at hlast
        have hcond :
            (match (d :: ds).getLast? with
              | none => ([] : List Char) = [] | some c => isWsChar c = false) := by
          cases hg : (d :: ds).getLast? with
          | none => rfl
          | some x =>
            rw [hg] at hlast
            exact hlast
        have hrec := ih [] (by simp) hnlcs hcond
        simp only [List.reverse_nil, List.nil_append] at hrec
        rw [hrec]

theorem rule3L_id (l : List Char) (hnl : ∀ c ∈ l, c ≠ '\n')
    (hlast : ∀ c, l.getLast? = some c → isWsChar c = false) : rule3L l = l := by
  unfold rule3L
  have h := rule3Go_id l [] (by simp) hnl (by
    cases he : l.getLast? with
    | none => rfl
    | some c => exact hlast c he)
  simpa using h

theorem rule4Go_swap {l : List Char} (h : ∀ c, l.head? = some c → isWsChar c = false) :
    rule4Go true [] l = rule4Go false [] l := by
  cases l with
  | nil => rfl
  | cons c cs =>
    have hc := h c rfl
    by_cases hp : isPunctChar c = true
    · simp only [rule4Go, if_pos hp]
    · simp only [rule4Go, if_neg hp, hc]
      simp

theorem rule4Go_cons (afterP : Bool) (pend : List Char) (c : Char) (cs : List Char) :
    rule4Go afterP pend (c :: cs) =
      if isPunctChar c = true then c :: rule4Go true [] cs
      else if isWsChar c = true then
        (if afterP = true then rule4Go true [] cs else rule4Go false (c :: pend) cs)
      else pend.reverse ++ c :: rule4Go false [] cs := rfl

theorem rule4Go_id : ∀ (l : List Char), pairsOk l = true → rule4Go false [] l = l := by
  intro l
  induction l using pairsOk.induct with
  | case1 => intro _; rfl
  | case2 c =>
    intro _
    rw [rule4Go_cons]
    by_cases hp : isPunctChar c = true
    · simp [rule4Go, hp]
    · by_cases hw : isWsChar c = true
      · simp [rule4Go, hp, hw]
      · simp [rule4Go, hp, hw]
  | case3 c d r ih =>
    intro h
    have hpair := pairsOk_head h
    have htail := pairsOk_tail h
    have hrecdr := ih htail
    rw [rule4Go_cons]
    by_cases hp : isPunctChar c = true
    · have hd : isWsChar d = false := by
        cases hdw : isWsChar d
        · rfl
        · rw [punct_ws_not_pairOk hp hdw] at hpair; simp at hpair
      have hswap : rule4Go true [] (d :: r) = rule4Go false [] (d :: r) :=
        rule4Go_swap (fun e he => by
          simp only [List.head?_cons, Option.some_inj] at he
          exact he ▸ hd)
      rw [if_pos hp, hswap, hrecdr]
    · by_cases hw : isWsChar c = true
      · have hd : isWsChar d = false := by
          cases hdw : isWsChar d
          · rfl
          · rw [ws_ws_not_pairOk hw hdw] at hpair; simp at hpair
        have hdp : isPunctChar d = false := by
          cases hdp2 : isPunctChar d
          · rfl
          · rw [ws_punct_not_pairOk hw hdp2] at hpair; simp at hpair
        have htr : rule4Go false [] r = r := by
          have h2 := hrecdr
          rw [rule4Go_cons, if_neg (by simp [hdp]), if_neg (by simp [hd])] at h2
          simp only [List.reverse_nil, List.nil_append] at h2
          exact (List.cons.injEq _ _ _ _).mp h2 |>.2
        rw [if_neg hp, if_pos hw, if_neg (by simp)]
        rw [rule4Go_cons, if_neg (by simp [hdp]), if_neg (by simp [hd])]
        rw [htr]
        rfl
      · rw [if_neg hp, if_neg hw]
        rw [hrecdr]
        rfl

theorem gap_empty_of_close_punct {kw gap rest close : List Char}
    (hcl : ∃ b u, close = b :: u ∧ isPunctChar b = true) {l2 : List Char}
    (hp : pairsOk l2 = true) (hdec : l2 = kw ++ gap ++ close ++ rest)
    (hgap : ∀ c ∈ gap, isWsChar c = true) : gap = [] := by
  obtain ⟨b, u, hclose, hcl⟩ := hcl
  rw [hclose] at hdec
  by_contra hne
  have hlast := List.dropLast_append_getLast hne
  have hadj : pairOk (gap.getLast hne) b = true := by
    refine pairsOk_adj (kw ++ gap.dropLast) (y := u ++ rest) hp ?_
    rw [hdec]
    conv_lhs => rw [← hlast]
    simp [List.append_assoc]
  have hwl : isWsChar (gap.getLast hne) = true := hgap _ (List.getLast_mem hne)
  rw [ws_punct_not_pairOk hwl hcl] at hadj
  simp at hadj

theorem gap_empty_of_kw_punct {kw : List Char}
    (hkw : ∃ v k, kw = v ++ [k] ∧ isPunctChar k = true)
    {gap close rest l2 : List Char} (hp : pairsOk l2 = true)
    (hdec : l2 = kw ++ gap ++ close ++ rest)
    (hgap : ∀ c ∈ gap, isWsChar c = true) : gap = [] := by
  obtain ⟨v, k, hkeq, hkl⟩ := hkw
  rw [hkeq] at hdec
  by_contra hne
  obtain ⟨g0, gs, hg⟩ := List.exists_cons_of_ne_nil hne
  have hadj : pairOk k g0 = true := by
    refine pairsOk_adj v (y := gs ++ close ++ rest) hp ?_
    rw [hdec, hg]
    simp [List.append_assoc]
  have hw0 : isWsChar g0 = true := hgap g0 (by rw [hg]; simp)
  rw [punct_ws_not_pairOk hkl hw0] at hadj
  simp at hadj

theorem gap_space_of_needws {kw gap close rest l2 : List Char}
    (hp : pairsOk l2 = true) (hs : spacesOnly l2 = true)
    (hdec : l2 = kw ++ gap ++ close ++ rest)
    (hgap : ∀ c ∈ gap, isWsChar c = true) (hne : gap ≠ []) : gap = [' '] := by
  cases gap with
  | nil => exact absurd rfl hne
  | cons g0 gs =>
    cases gs with
    | nil =>
      have hmem : g0 ∈ l2 := by rw [hdec]; simp
      rw [spacesOnly_mem hs hmem (hgap g0 (by simp))]
    | cons g1 gr =>
      have hadj : pairOk g0 g1 = true := by
        refine pairsOk_adj kw (y := gr ++ close ++ rest) hp ?_
        rw [hdec]
        simp [List.append_assoc]
      rw [ws_ws_not_pairOk (hgap g0 (by simp)) (hgap g1 (by simp))] at hadj
      simp at hadj

theorem gapRuleGo_id (kw close sep : List Char) (needWs : Bool)
    (hgap : ∀ (l2 gap rest : List Char), pairsOk l2 = true → spacesOnly l2 = true →
      l2 = kw ++ gap ++ close ++ rest → (∀ c ∈ gap, isWsChar c = true) →
      (needWs = true → gap ≠ []) → gap = sep) :
    ∀ (n : Nat) (l : List Char), pairsOk l = true → spacesOnly l = true →
      gapRuleGo kw close sep needWs n l = l := by
  intro n
  induction n with
  | zero => intro l _ _; rfl
  | succ n ih =>
    intro l hp hs
    match l with
    | [] => rfl
    | c :: cs =>
      simp only [gapRuleGo]
      cases hm : gapMatch kw close needWs (c :: cs) with
      | some rest =>
        dsimp only
        obtain ⟨gap, hdec, hgapws, hne⟩ := gapMatch_decomp hm
        have hseq : gap = sep := hgap _ _ _ hp hs hdec hgapws hne
        have hp2 : pairsOk rest = true := by
          rw [hdec] at hp
          exact pairsOk_suffix _ _ hp
        have hs2 : spacesOnly rest = true := by
          rw [hdec] at hs
          exact spacesOnly_suffix hs
        rw [ih rest hp2 hs2, ← hseq]
        exact hdec.symm
      | none =>
        dsimp only
        have hp2 : pairsOk cs = true := pairsOk_tail hp
        have hs2 : spacesOnly cs = true := spacesOnly_suffix (x := [c]) (by simpa using hs)
        rw [ih cs hp2 hs2]

theorem rule5L_id (l : List Char) (hp : pairsOk l = true) (hs : spacesOnly l = true) :
    rule5L l = l := by
  unfold rule5L gapRule
  refine gapRuleGo_id _ _ _ _ ?_ l.length l hp hs
  intro l2 gap rest hp2 hs2 hdec hgap _
  exact gap_empty_of_close_punct ⟨'{', [], by decide, by decide⟩ hp2 hdec hgap

theorem rule6L_id (l : List Char) (hp : pairsOk l = true) (hs : spacesOnly l = true) :
    rule6L l = l := by
  unfold rule6L gapRule
  refine gapRuleGo_id _ _ _ _ ?_ l.length l hp hs
  intro l2 gap rest hp2 hs2 hdec hgap _
  exact gap_empty_of_kw_punct ⟨[], '}', by decide, by decide⟩ hp2 hdec hgap

theorem rule7L_id (l : List Char) (hp : pairsOk l = true) (hs : spacesOnly l = true) :
    rule7L l = l := by
  unfold rule7L gapRule
  refine gapRuleGo_id _ _ _ _ ?_ l.length l hp hs
  intro l2 gap rest hp2 hs2 hdec hgap _
  exact gap_empty_of_close_punct ⟨'{', [], by decide, by decide⟩ hp2 hdec hgap

theorem rule8L_id (l : List Char) (hp : pairsOk l = true) (hs : spacesOnly l = true) :
    rule8L l = l := by
  unfold rule8L gapRule
  refine gapRuleGo_id _ _ _ _ ?_ l.length l hp hs
  intro l2 gap rest hp2 hs2 hdec hgap hne
  exact gap_space_of_needws hp2 hs2 hdec hgap (hne rfl)

theorem rule9L_id (l : List Char) (hp : pairsOk l = true) (hs : spacesOnly l = true) :
    rule9L l = l := by
  unfold rule9L gapRule
  refine gapRuleGo_id _ _ _ _ ?_ l.length l hp hs
  intro l2 gap rest hp2 hs2 hdec hgap hne
  exact gap_space_of_needws hp2 hs2 hdec hgap (hne rfl)

theorem rule10L_id (l : List Char) (hp : pairsOk l = true) (hs : spacesOnly l = true) :
    rule10L l = l := by
  unfold rule10L gapRule
  refine gapRuleGo_id _ _ _ _ ?_ l.length l hp hs
  intro l2 gap rest hp2 hs2 hdec hgap hne
  exact gap_space_of_needws hp2 hs2 hdec hgap (hne rfl)

theorem rule11L_id (l : List Char) (hp : pairsOk l = true) (hs : spacesOnly l = true) :
    rule11L l = l := by
  unfold rule11L gapRule
  refine gapRuleGo_id _ _ _ _ ?_ l.length l hp hs
  intro l2 gap rest hp2 hs2 hdec hgap hne
  exact gap_space_of_needws hp2 hs2 hdec hgap (hne rfl)

theorem rule12Go_id : ∀ (n : Nat) (l : List Char), pairsOk l = true → spacesOnly l = true →
    rule12Go n l = l := by
  intro n
  induction n with
  | zero => intro l _ _; rfl
  | succ n ih =>
    intro l hp hs
    match l with
    | [] => rfl
    | c :: cs =>
      simp only [rule12Go]
      cases hm : typeEqMatch (c :: cs) with
      | some q =>
        obtain ⟨w, rest⟩ := q
        dsimp only
        obtain ⟨ws1, ws2, hdec, hws1, hws2, _, hne1⟩ :=
          typeEqMatch_decomp (show typeEqMatch (c :: cs) = some (w, rest) from hm)
        have hws1s : ws1 = [' '] := by
          cases ws1 with
          | nil => exact absurd rfl hne1
          | cons g0 gs =>
            cases gs with
            | nil =>
              have hmem : g0 ∈ c :: cs := by rw [hdec]; simp
              rw [spacesOnly_mem hs hmem (hws1 g0 (by simp))]
            | cons g1 gr =>
              have hadj : pairOk g0 g1 = true := by
                refine pairsOk_adj "type".toList (y := gr ++ w ++ ws2 ++ '=' :: rest) hp ?_
                rw [hdec]
                simp [List.append_assoc]
              rw [ws_ws_not_pairOk (hws1 g0 (by simp)) (hws1 g1 (by simp))] at hadj
              simp at hadj
        have hws2e : ws2 = [] := by
          by_contra hne2
          have hlast := List.dropLast_append_getLast hne2
          have hadj : pairOk (ws2.getLast hne2) '=' = true := by
            refine pairsOk_adj ("type".toList ++ ws1 ++ w ++ ws2.dropLast) (y := rest) hp ?_
            rw [hdec]
            conv_lhs => rw [← hlast]
            simp [List.append_assoc]
          rw [ws_punct_not_pairOk (hws2 _ (List.getLast_mem hne2)) (by decide)] at hadj
          simp at hadj
        have hrest : rule12Go n rest = rest := by
          refine ih rest ?_ ?_
          · rw [hdec] at hp
            have := pairsOk_suffix ("type".toList ++ ws1 ++ w ++ ws2 ++ ['=']) rest
            apply this
            simpa [List.append_assoc] using hp
          · rw [hdec] at hs
            have := spacesOnly_suffix (x := "type".toList ++ ws1 ++ w ++ ws2 ++ ['='])
              (y := rest)
            apply this
            simpa [List.append_assoc] using hs
        rw [hrest, hdec, hws1s, hws2e]
        have hts : "type ".toList = "type".toList ++ [' '] := by decide
        rw [hts]
        simp [List.append_assoc]
      | none =>
        dsimp only
        rw [ih cs (pairsOk_tail hp) (spacesOnly_suffix (x := [c]) (by simpa using hs))]

theorem rule12L_id (l : List Char) (hp : pairsOk l = true) (hs : spacesOnly l = true) :
    rule12L l = l := rule12Go_id l.length l hp hs

theorem rule13Go_id : ∀ (n : Nat) (l : List Char), pairsOk l = true →
    rule13Go n l = l := by
  intro n
  induction n with
  | zero => intro l _; rfl
  | succ n ih =>
    intro l hp
    match l with
    | [] => rfl
    | c :: cs =>
      simp only [rule13Go]
      by_cases hc : c = ':'
      · subst hc
        rw [if_pos rfl]
        have hdw : cs.dropWhile isWsChar = cs := by
          cases cs with
          | nil => rfl
          | cons d ds =>
            have hd : isWsChar d = false := by
              cases hdw2 : isWsChar d
              · rfl
              · have hadj := pairsOk_head hp
                rw [punct_ws_not_pairOk (by decide) hdw2] at hadj
                simp at hadj
            simp [List.dropWhile_cons, hd]
        rw [hdw]
        cases cs with
        | nil =>
          dsimp only
          rw [ih [] rfl]
        | cons d ds =>
          dsimp only
          by_cases hd : isAsciiLetter d = true
          · rw [if_pos hd, ih ds (pairsOk_tail (pairsOk_tail hp))]
          · rw [if_neg hd, ih (d :: ds) (pairsOk_tail hp)]
      · rw [if_neg hc, ih cs (pairsOk_tail hp)]

theorem rule13L_id (l : List Char) (hp : pairsOk l = true) : rule13L l = l :=
  rule13Go_id l.length l hp

theorem rule1L_id (l : List Char) (hnl : ∀ c ∈ l, c ≠ '\n') : rule1L l = l :=
  rule1Go_id l hnl

theorem splitNlL_single {l : List Char} (h : ∀ c ∈ l, c ≠ '\n') : splitNlL l = [l] := by
  induction l with
  | nil => rfl
  | cons c cs ih =>
    simp only [splitNlL]
    rw [if_neg (h c (by simp)), ih (fun d hd => h d (by simp [hd]))]

theorem trimL_id {l : List Char} (hh : ∀ c, l.head? = some c → isWsChar c = false)
    (hl : ∀ c, l.getLast? = some c → isWsChar c = false) : trimL l = l := by
  unfold trimL
  have h1 : l.dropWhile isWsChar = l := by
    cases l with
    | nil => rfl
    | cons c cs => simp [List.dropWhile_cons, hh c rfl]
  rw [h1]
  have h2 : l.reverse.dropWhile isWsChar = l.reverse := by
    cases hr : l.reverse with
    | nil => simp
    | cons c cs =>
      have hg : l.getLast? = some c := by
        rw [← List.head?_reverse, hr]
        rfl
      simp [List.dropWhile_cons, hl c hg]
  rw [h2, List.reverse_reverse]

theorem processLinesL_id {l : List Char} (hnl : ∀ c ∈ l, c ≠ '\n')
    (hh : ∀ c, l.head? = some c → isWsChar c = false)
    (hl : ∀ c, l.getLast? = some c → isWsChar c = false) : processLinesL l = l := by
  unfold processLinesL
  rw [splitNlL_single hnl]
  simp only [List.map_cons, List.map_nil, trimL_id hh hl]
  cases l with
  | nil => rfl
  | cons c cs => simp [List.filter]

theorem isNormalized_parts {l : List Char} (h : isNormalized l = true) :
    spacesOnly l = true ∧ pairsOk l = true ∧
    (∀ c, l.head? = some c → isWsChar c = false) ∧
    (∀ c, l.getLast? = some c → isWsChar c = false) := by
  unfold isNormalized at h
  simp only [Bool.and_eq_true] at h
  obtain ⟨⟨⟨h1, h2⟩, h3⟩, h4⟩ := h
  refine ⟨h1, h2, ?_, ?_⟩
  · intro c hc
    cases l with
    | nil => simp at hc
    | cons d ds =>
      simp only [List.head?_cons, Option.some_inj] at hc
      subst hc
      simpa using h3
  · intro c hc
    rw [hc] at h4
    simpa using h4

theorem rule4L_id (l : List Char) (hp : pairsOk l = true) : rule4L l = l :=
  rule4Go_id l hp

theorem advancedCompressL_id {l : List Char} (h : isNormalized l = true) :
    advancedCompressL l = l := by
  obtain ⟨hs, hp, hh, hl⟩ := isNormalized_parts h
  have hnl : ∀ c ∈ l, c ≠ '\n' := spacesOnly_no_nl hs
  unfold advancedCompressL compressionRules
  simp only [List.foldl_cons, List.foldl_nil, applyRule]
  rw [rule1L_id l hnl, rule2L_id l hnl hh, rule3L_id l hnl hl, rule4L_id l hp,
    rule5L_id l hp hs, rule6L_id l hp hs, rule7L_id l hp hs, rule8L_id l hp hs,
    rule9L_id l hp hs, rule10L_id l hp hs, rule11L_id l hp hs, rule12L_id l hp hs,
    rule13L_id l hp]
  exact processLinesL_id hnl hh hl

theorem foldl_pipe_apply : ∀ (fs : List CompressFunction) (f : CompressFunction) (s : String),
    (fs.foldl pipe f) s = fs.foldl (fun acc g => g acc) (f s) := by
  intro fs
  induction fs with
  | nil => intro f s; rfl
  | cons g gs ih =>
    intro f s
    simp only [List.foldl_cons]
    rw [ih]
    rfl

theorem aggregateStats_fst_aux : ∀ (files : List ProcessedFile) (p : Nat × Nat),
    (files.foldl
      (fun acc file => (acc.1 + file.stats.originalSize, acc.2 + file.stats.compressedSize))
      p).1 = p.1 + (files.map (fun f => f.stats.originalSize)).sum := by
  intro files
  induction files with
  | nil => intro p; simp
  | cons f fs ih =>
    intro p
    simp only [List.foldl_cons, List.map_cons, List.sum_cons]
    rw [ih]
    dsimp only
    omega

theorem intercalate_go_empty : ∀ (as : List String) (acc : String),
    String.intercalate.go acc "" as = as.foldl (fun r s => r ++ s) acc := by
  intro as
  induction as with
  | nil => intro acc; rfl
  | cons a as ih =>
    intro acc
    simp only [String.intercalate.go, List.foldl_cons]
    rw [ih]
    simp

theorem intercalate_empty (l : List String) : String.intercalate "" l = String.join l := by
  cases l with
  | nil => rfl
  | cons a as =>
    show String.intercalate.go a "" as = String.join (a :: as)
    rw [intercalate_go_empty]
    show _ = (a :: as).foldl (fun r s => r ++ s) ""
    simp

/-- C7: the Compression Pipeline is strict left-to-right composition:
`createCompressionPipeline` applied to `s` folds the supplied functions
over `f1 s` in order, and `defaultCompressionPipeline` is exactly
`advancedCompress` after `removeCommentsWithAST`. -/
theorem claim_C7_pipeline_composition (f : CompressFunction) (fs : List CompressFunction)
    (s : String) :
    createCompressionPipeline f fs s = fs.foldl (fun acc g => g acc) (f s) ∧
    defaultCompressionPipeline s = advancedCompress (removeCommentsWithAST s) :=
  ⟨foldl_pipe_apply fs f s, rfl⟩

theorem advancedCompress_data (s : String) :
    (advancedCompress s).data = advancedCompressL s.data := by
  unfold advancedCompress
  dsimp only

/-- C9: the Textual Normalizer's output is a single line: it never
contains a newline character, because the final step splits into lines,
trims, drops empties, and joins with no separator. -/
theorem claim_C9_single_line (s : String) : '\n' ∉ (advancedCompress s).data := by
  rw [advancedCompress_data]
  unfold advancedCompressL
  exact processLinesL_no_nl _

/-- C6 (corrected): the Textual Normalizer's output is a fixed point — so
a second application changes nothing — whenever that output is in
normalized form (`isNormalized`: whitespace only as single interior
spaces not adjacent to punctuation).  The unconditional claim is false:
see `claim_C6_counterexample`, where joining lines merges split text into
a fresh `type\s+(\w+)\s*=` match for the second pass. -/
theorem claim_C6_fixed_point (s : String)
    (h : isNormalized (advancedCompress s).data = true) :
    advancedCompress (advancedCompress s) = advancedCompress s := by
  apply String.ext
  rw [advancedCompress_data (advancedCompress s), advancedCompress_data s]
  rw [advancedCompress_data s] at h
  exact advancedCompressL_id h

/-- C6 counterexample: `advancedCompress` is not idempotent on
`"ty\npe  foo=1"`, an input without string-literal content: one pass
yields `"type  foo=1"`, a second pass contracts it to `"type foo=1"`. -/
theorem claim_C6_counterexample :
    advancedCompress (advancedCompress c6input) ≠ advancedCompress c6input := by decide

/-- C6 witness: a typical input whose normalized output the fixed-point
theorem applies to. -/
theorem claim_C6_witness :
    isNormalized (advancedCompress c6witnessInput).data = true ∧
    advancedCompress (advancedCompress c6witnessInput) = advancedCompress c6witnessInput :=
  ⟨by decide, claim_C6_fixed_point c6witnessInput (by decide)⟩

/-- C5 (corrected): for the spec's scenario input
`import { foo } from 'bar';`, the Textual Normalizer produces exactly
`import{foo}from 'bar';` — the space before the string literal survives,
because a quote character is not in the punctuation-tightening set. -/
theorem claim_C5_scenario : advancedCompress c5input = c5actual := by decide

/-- C5 counterexample: the input contains the scenario fragment, yet the
spec's claimed normalized fragment `import{foo}from'bar';` does not occur
in the output. -/
theorem claim_C5_counterexample :
    hasInfixL c5input.data c5input.data = true ∧
    hasInfixL c5claimed.data (advancedCompress c5input).data = false := by decide

/-- C1 (corrected): the default Compression Pipeline preserves exactly
the non-whitespace characters of the non-comment tokens of its input, in
order (character-sequence equality modulo comments and whitespace).  The
token-sequence form of the claim is false — see
`claim_C1_counterexample` — because the Textual Normalizer also deletes
whitespace inside string/template literals (the spec's own section-9
gap). -/
theorem claim_C1_char_preservation (s : String) :
    nonWsOf (defaultCompressionPipeline s).data =
      nonWsOf ((((tokenizeL s.data).filter
        (fun t => t.kind ≠ TokKind.commentTok)).map Tok.chars).flatten) := by
  have h1 : defaultCompressionPipeline s = advancedCompress (removeCommentsWithAST s) := rfl
  rw [h1, advancedCompress_data, advancedCompressL_nonWs]
  rfl

/-- C1 counterexample: on the comment-free input `const s = "a : b";`
the pipeline's output token sequence (whitespace dropped) differs from
the input's non-comment, non-whitespace token sequence: the string
literal token is rewritten to `"a:b"`. -/
theorem claim_C1_counterexample :
    outToks (defaultCompressionPipeline c1input).data ≠ sigToks c1input.data := by decide

/-- C2 (corrected): `calculateStats` copies its size arguments into the
result, returns ratio 0 when the original size is zero, and otherwise
computes the ratio by `Math.round` of the binary64 (IEEE 754 double)
evaluation of `(1 - compressedSize / originalSize) * 100` — which is what
JavaScript arithmetic does, and which can differ from the exact rational
formula (see `claim_C2_counterexample`).  The size bounds delimit the
range on which the binary64 model is faithful. -/
theorem claim_C2_stats_model (o c : Nat) (ho : o < 2 ^ 53) (hc : c < 2 ^ 53) :
    (calculateStats o c).originalSize = o ∧ (calculateStats o c).compressedSize = c ∧
    (o = 0 → (calculateStats o c).ratioPercent = 0) ∧
    (0 < o → (calculateStats o c).ratioPercent =
      jsMathRound (fpMul (fpSub (q2OfNat 1) (fpDiv (q2OfNat c) (q2OfNat o))) (q2OfNat 100))) := by
  refine ⟨rfl, rfl, ?_, ?_⟩
  · intro h
    simp [calculateStats, h]
  · intro h
    simp [calculateStats, h]

/-- C2 counterexample: at originalSize 40, compressedSize 17 the code's
binary64 evaluation yields 57, but the exact formula
round((1 - 17/40) × 100) = round(57.5) yields 58. -/
theorem claim_C2_counterexample :
    (calculateStats 40 17).ratioPercent ≠ ⌊((1 - (17 : ℚ) / 40) * 100 + 1 / 2)⌋ := by
  have h1 : (calculateStats 40 17).ratioPercent = 57 := by decide
  have h2 : (⌊((1 - (17 : ℚ) / 40) * 100 + 1 / 2)⌋ : Int) = 58 := by
    have h : ((1 - (17 : ℚ) / 40) * 100 + 1 / 2) = ((58 : Int) : ℚ) := by norm_num
    rw [h, Int.floor_intCast]
  rw [h1, h2]
  decide

/-- C2 witness: the stats-model theorem applied at concrete sizes. -/
theorem claim_C2_witness :
    (calculateStats 0 7).ratioPercent = 0 ∧
    (calculateStats 40 17).ratioPercent =
      jsMathRound (fpMul (fpSub (q2OfNat 1) (fpDiv (q2OfNat 17) (q2OfNat 40))) (q2OfNat 100)) :=
  ⟨(claim_C2_stats_model 0 7 (by decide) (by decide)).2.2.1 rfl,
   (claim_C2_stats_model 40 17 (by decide) (by decide)).2.2.2 (by decide)⟩

/-- C3: on a non-empty batch the Batch Aggregator reports a total
compressedSize equal to the length of the final concatenated output
string (tags included) and a total originalSize equal to the sum of the
per-file original sizes. -/
theorem claim_C3_batch_totals (dir : String) (fcs : List (String × String)) (ps : Bool)
    (hne : fcs ≠ []) :
    ∃ r, compressTypeScriptFilesPure dir fcs ps = .ok r ∧
      r.totalStats.compressedSize = r.output.length ∧
      r.totalStats.originalSize = (r.files.map (fun f => f.stats.originalSize)).sum := by
  unfold compressTypeScriptFilesPure
  rw [if_neg hne]
  refine ⟨_, rfl, rfl, ?_⟩
  show (aggregateStats _).1 = _
  unfold aggregateStats
  rw [aggregateStats_fst_aux]
  simp

/-- C3 witness: the batch-totals theorem at a concrete one-file batch. -/
theorem claim_C3_witness :
    ∃ r, compressTypeScriptFilesPure "." [("./a.ts", "let a = 1;")] false = .ok r ∧
      r.totalStats.compressedSize = r.output.length ∧
      r.totalStats.originalSize = (r.files.map (fun f => f.stats.originalSize)).sum :=
  claim_C3_batch_totals "." [("./a.ts", "let a = 1;")] false (by decide)

/-- C4 (corrected): the compact inline tag is exactly
`/*relativePath*/compressedContent`; the block tag begins with a leading
newline — `\n/*=== relativePath ===*/\ncompressedContent\n` — which the
claim omits (see `claim_C4_counterexample`); outputs are concatenated
with no separator in compact mode and joined by a newline in block
mode. -/
theorem claim_C4_tag_format (f : ProcessedFile) (b : String) (files : List ProcessedFile) :
    formatFileOutput f b false =
      "/*" ++ getRelativePath f.path b ++ "*/" ++ f.compressedContent ∧
    (formatFileOutput f b true).data =
      '\n' :: ("/*=== " ++ getRelativePath f.path b ++ " ===*/\n" ++
        f.compressedContent ++ "\n").data ∧
    generateOutput files b false =
      String.join (files.map (fun g => formatFileOutput g b false)) ∧
    generateOutput files b true =
      String.intercalate "\n" (files.map (fun g => formatFileOutput g b true)) := by
  refine ⟨rfl, ?_, ?_, rfl⟩
  · show ("\n/*=== " ++ getRelativePath f.path b ++ " ===*/\n" ++
      f.compressedContent ++ "\n").data = _
    have hsplit : ("\n/*=== " : String).data = '\n' :: ("/*=== " : String).data := by decide
    simp [String.data_append, hsplit]
  · show String.intercalate "" _ = _
    exact intercalate_empty _

/-- C4 counterexample: in block mode the formatted output is not the
claimed tag-first string: it starts with a newline. -/
theorem claim_C4_counterexample :
    formatFileOutput c4file "src" true ≠
      "/*=== " ++ getRelativePath c4file.path "src" ++ " ===*/\n" ++
        c4file.compressedContent ++ "\n" := by decide

/-- C8: the batch run errors when the resolved input file list is empty,
and a selection-based invocation errors with `No files selected` when the
selection resolves to zero files; in both cases no result is produced. -/
theorem claim_C8_empty_errors (dir : String) (fcs : List (String × String)) (ps : Bool)
    (files : List String) (sel : List Nat) (contents : String → String) (b : String)
    (ps2 : Bool) (h1 : fcs = []) (h2 : resolveSelection files sel = []) :
    compressTypeScriptFilesPure dir fcs ps =
      .error ("No TypeScript files found in " ++ dir) ∧
    compressSelectedFilesPure files sel contents b ps2 = .error "No files selected" := by
  constructor
  · unfold compressTypeScriptFilesPure
    rw [if_pos h1]
  · unfold compressSelectedFilesPure
    rw [h2]
    simp

/-- C8 witness: the empty-input errors at concrete arguments (an empty
batch, and a selection whose only index is out of range). -/
theorem claim_C8_witness :
    resolveSelection ["a.ts"] [5] = [] ∧
    compressTypeScriptFilesPure "src" [] false =
      .error ("No TypeScript files found in " ++ "src") ∧
    compressSelectedFilesPure ["a.ts"] [5] (fun _ => "") "." false =
      .error "No files selected" :=
  ⟨by decide,
   (claim_C8_empty_errors "src" [] false ["a.ts"] [5] (fun _ => "") "." false rfl
     (by decide)).1,
   (claim_C8_empty_errors "src" [] false ["a.ts"] [5] (fun _ => "") "." false rfl
     (by decide)).2⟩

/-- C10: the filter returned by `createFileFilter` rejects every file
name that does not end in `.ts`, regardless of the include and exclude
patterns — and regardless of the pattern-test function. -/
theorem claim_C10_non_ts_rejected (test : String → String → Bool)
    (inc exc : List String) (fileName : String)
    (h : strEndsWith fileName ".ts" = false) :
    createFileFilterWith test inc exc fileName = false ∧
    createFileFilter inc exc fileName = false := by
  constructor
  · unfold createFileFilterWith
    rw [h]
    simp
  · unfold createFileFilter createFileFilterWith
    rw [h]
    simp

/-- C10 witness: a `.js` name is rejected even with a universal include
pattern. -/
theorem claim_C10_witness :
    strEndsWith "main.js" ".ts" = false ∧
    createFileFilterWith globTest ["*"] [] "main.js" = false ∧
    createFileFilter ["*"] [] "main.js" = false :=
  ⟨by decide,
   (claim_C10_non_ts_rejected globTest ["*"] [] "main.js" (by decide)).1,
   (claim_C10_non_ts_rejected globTest ["*"] [] "main.js" (by decide)).2⟩
